import Mathlib

/-!
# Verification of the reluxscript repository's tooling scripts

This file gives a shallow embedding, in Lean 4, of the pure computational
cores of the Python tooling scripts of the reluxscript repository:

* `source/extract_methods.py` (`classify_method`),
* `source/extract_methods_v2.py` (`extract_method`),
* `source/test_codegen.py` (`normalize_output`, `test_codegen`),
* `source/test_analyzers.py` (`test_file`),
* `source/check_parse_errors.py` (`extract_error_location`, `get_code_snippet`),
* `source/tests/minimal/run_tests.py` (`run_test`),
* `rename_extensions.py` (`rename_rsc_to_lux`) and
  `scripts/rename_files.py` (`rename_files`).

Python strings are modelled as Lean `String`/`List Char`; the `in` substring
operator as list infix; file-system and subprocess effects are made explicit
as records or state (a file system is a list of path strings).  Theorems at
the end of the file settle the frozen claims about these scripts.
-/

/-- Python's `sub in s` substring test, on Lean strings. -/
def containsSub (s sub : String) : Bool := decide (sub.data <:+: s.data)

/-- Python's `str.lower()` (the method names involved are ASCII). -/
def pyLower (s : String) : String := String.mk (s.data.map Char.toLower)

/-- Embedding of `classify_method` from `source/extract_methods.py`
(lines 57-106): the substring/keyword cascade that assigns each method
name of the original generator to one of ten target modules. -/
def classify_method (method_name : String) : String :=
  if method_name ∈ ["emit", "emit_indent", "emit_line"] then "emit"
  else if containsSub method_name "detect" then "detection"
  else if ["to_swc", "to_rust", "_type", "_op", "type_to", "reluxscript_"].any
      (fun x => containsSub method_name x) then "type_mapping"
  else if method_name ∈ ["infer_type", "type_from_ast", "get_element_type",
      "extract_matches_pattern"] then "type_inference"
  else if containsSub (pyLower method_name) "pattern" then "patterns"
  else if method_name ∈ ["gen_expr", "gen_literal", "gen_matches_macro",
      "gen_decorated_expr"] then "expressions"
  else if method_name ∈ ["gen_stmt", "gen_block", "gen_if_let_stmt", "gen_traverse_stmt",
      "gen_stmt_with_context", "gen_decorated_stmt", "gen_decorated_if_let_stmt",
      "gen_decorated_block"] then "statements"
  else if method_name ∈ ["gen_struct", "gen_enum", "gen_helper_function",
      "gen_parser_module_helpers", "gen_codegen_module_helpers",
      "gen_codegen_call", "gen_codegen_config"] then "structures"
  else if containsSub method_name "visitor" || containsSub method_name "visit_method"
      || method_name = "is_visitor_method" then "visitors"
  else if method_name ∈ ["gen_plugin", "gen_writer", "gen_module", "gen_decorated_plugin",
      "gen_decorated_writer", "gen_decorated_visitor_method"] then "top_level"
  else "top_level"

/-- The ten module names `classify_method` can produce. -/
def moduleNames : List String :=
  ["emit", "detection", "type_mapping", "type_inference", "patterns",
   "expressions", "statements", "structures", "visitors", "top_level"]

/-- A method name matches one of the nine non-default heuristics of
`classify_method` (everything before the final `top_level` list and the
default fall-through, both of which yield `"top_level"`). -/
def matchesEarlierHeuristic (method_name : String) : Bool :=
  decide (method_name ∈ ["emit", "emit_indent", "emit_line"])
  || containsSub method_name "detect"
  || ["to_swc", "to_rust", "_type", "_op", "type_to", "reluxscript_"].any
      (fun x => containsSub method_name x)
  || decide (method_name ∈ ["infer_type", "type_from_ast", "get_element_type",
      "extract_matches_pattern"])
  || containsSub (pyLower method_name) "pattern"
  || decide (method_name ∈ ["gen_expr", "gen_literal", "gen_matches_macro",
      "gen_decorated_expr"])
  || decide (method_name ∈ ["gen_stmt", "gen_block", "gen_if_let_stmt", "gen_traverse_stmt",
      "gen_stmt_with_context", "gen_decorated_stmt", "gen_decorated_if_let_stmt",
      "gen_decorated_block"])
  || decide (method_name ∈ ["gen_struct", "gen_enum", "gen_helper_function",
      "gen_parser_module_helpers", "gen_codegen_module_helpers",
      "gen_codegen_call", "gen_codegen_config"])
  || (containsSub method_name "visitor" || containsSub method_name "visit_method"
      || method_name = "is_visitor_method")

/-- An if-then-else of two module names is a module name. -/
theorem ite_mem_mod {c : Prop} [Decidable c] {a b : String} (ha : a ∈ moduleNames)
    (hb : b ∈ moduleNames) : (if c then a else b) ∈ moduleNames := by
  split <;> assumption

/-- C1: classify_method is total: every method name is assigned one of the
ten module names, and a name matched by none of the nine substring/keyword
heuristics falls through to "top_level". -/
theorem classify_method_total (m : String) :
    classify_method m ∈ moduleNames ∧
    (matchesEarlierHeuristic m = false → classify_method m = "top_level") := by
  constructor
  · unfold classify_method
    exact ite_mem_mod (by decide) (ite_mem_mod (by decide) (ite_mem_mod (by decide)
      (ite_mem_mod (by decide) (ite_mem_mod (by decide) (ite_mem_mod (by decide)
      (ite_mem_mod (by decide) (ite_mem_mod (by decide) (ite_mem_mod (by decide)
      (ite_mem_mod (by decide) (by decide))))))))))
  · intro h
    simp only [matchesEarlierHeuristic, Bool.or_eq_false_iff] at h
    obtain ⟨⟨⟨⟨⟨⟨⟨⟨h1, h2⟩, h3⟩, h4⟩, h5⟩, h6⟩, h7⟩, h8⟩, h9⟩ := h
    unfold classify_method
    rw [if_neg (of_decide_eq_false h1), if_neg (by simp [h2]), if_neg (by simp [h3]),
      if_neg (of_decide_eq_false h4), if_neg (by simp [h5]), if_neg (of_decide_eq_false h6),
      if_neg (of_decide_eq_false h7), if_neg (of_decide_eq_false h8),
      if_neg (by simp [h9.1.1, h9.1.2, h9.2]), ite_self]

/-- Witness for C1 at the concrete name "helper_fn": none of the heuristics
match, so classification falls through to "top_level". -/
theorem classify_method_total_witness : classify_method "helper_fn" = "top_level" :=
  (classify_method_total "helper_fn").2 (by decide)

/-- Python's whitespace class as used by `str.strip()` (the six ASCII
whitespace characters). -/
def pyWS (c : Char) : Bool :=
  c = ' ' || c = '\t' || c = '\n' || c = '\r' || c = '\x0b' || c = '\x0c'

/-- `str.strip()` on a list of characters: drop whitespace from both ends. -/
def stripL (l : List Char) : List Char := (l.dropWhile pyWS).rdropWhile pyWS

/-- Embedding of `normalize_output` from `source/test_codegen.py` (lines
10-15): strip the content, split into lines (the line separator is LF, the
only one occurring in the compared files), strip each line, drop empty
lines, and rejoin with newlines.  The comprehension
`[line.strip() for line in lines if line.strip()]` keeps exactly the
nonempty stripped lines. -/
def normalize_output (content : String) : String :=
  let lines := (stripL content.data).splitOn '\n'
  let normalized_lines := (lines.map stripL).filter (fun l => !l.isEmpty)
  String.mk (List.intercalate ['\n'] normalized_lines)

/-- The list of lines `normalize_output` keeps, for use in proofs. -/
def keptLines (content : String) : List (List Char) :=
  (((stripL content.data).splitOn '\n').map stripL).filter (fun l => !l.isEmpty)

theorem normalize_output_eq_kept (s : String) :
    normalize_output s = String.mk (List.intercalate ['\n'] (keptLines s)) := rfl

theorem dropWhile_fix_iff (p : α → Bool) (l : List α) :
    l.dropWhile p = l ↔ ∀ c ∈ l.head?, p c = false := by
  cases l with
  | nil => simp
  | cons c cs =>
    constructor
    · intro h
      by_cases hc : p c = true
      · rw [List.dropWhile_cons_of_pos hc] at h
        have hlen := (List.dropWhile_sublist (p := p) (l := cs)).length_le
        rw [h] at hlen
        simp at hlen
      · intro a ha
        simp only [List.head?_cons, Option.mem_def, Option.some.injEq] at ha
        subst ha
        simpa using hc
    · intro h
      have hc : p c = false := h c (by simp)
      rw [List.dropWhile_cons_of_neg (by simp [hc])]

theorem stripL_drop_fix (l : List Char) : (stripL l).dropWhile pyWS = stripL l := by
  unfold stripL
  set a := l.dropWhile pyWS with ha
  have hfix : a.dropWhile pyWS = a := by
    rw [ha]
    exact List.dropWhile_idempotent pyWS l
  obtain ⟨t, ht⟩ := List.rdropWhile_prefix pyWS a
  rw [dropWhile_fix_iff]
  intro c hc
  have hne : a.rdropWhile pyWS ≠ [] := by
    intro hnil
    rw [hnil] at hc
    simp at hc
  obtain ⟨c0, xs, hx⟩ := List.exists_cons_of_ne_nil hne
  have hhead : a.head? = (a.rdropWhile pyWS).head? := by
    conv_lhs => rw [← ht]
    rw [hx]
    simp
  exact (dropWhile_fix_iff pyWS a).mp hfix c (by rw [hhead]; exact hc)

theorem stripL_rdrop_fix (l : List Char) : (stripL l).rdropWhile pyWS = stripL l :=
  List.rdropWhile_idempotent pyWS (l.dropWhile pyWS)

theorem stripL_idem (l : List Char) : stripL (stripL l) = stripL l := by
  conv_lhs => rw [stripL, stripL_drop_fix, stripL_rdrop_fix]

theorem stripL_eq_self {l : List Char} (h1 : l.dropWhile pyWS = l)
    (h2 : l.rdropWhile pyWS = l) : stripL l = l := by
  rw [stripL, h1, h2]

theorem stripL_sublist (l : List Char) : List.Sublist (stripL l) l := by
  have h1 : (l.dropWhile pyWS).rdropWhile pyWS <+: l.dropWhile pyWS :=
    List.rdropWhile_prefix pyWS (l.dropWhile pyWS)
  exact h1.sublist.trans (List.dropWhile_sublist pyWS)

theorem mem_splitOnP_false {p : α → Bool} {xs l : List α} (h : l ∈ xs.splitOnP p) :
    ∀ a ∈ l, p a = false := by
  induction xs generalizing l with
  | nil =>
    rw [List.splitOnP_nil] at h
    simp only [List.mem_singleton] at h
    subst h
    simp
  | cons c cs ih =>
    rw [List.splitOnP_cons] at h
    by_cases hc : p c = true
    · rw [if_pos hc] at h
      rcases List.mem_cons.mp h with h0 | h0
      · subst h0; simp
      · exact ih h0
    · rw [if_neg hc] at h
      cases hcs : cs.splitOnP p with
      | nil => exact absurd hcs (List.splitOnP_ne_nil p cs)
      | cons m ms =>
        rw [hcs] at h
        simp only [List.modifyHead_cons] at h
        rcases List.mem_cons.mp h with h0 | h0
        · subst h0
          intro a ha
          rcases List.mem_cons.mp ha with rfl | ha
          · simpa using hc
          · exact ih (hcs ▸ List.mem_cons_self m ms) a ha
        · exact ih (hcs ▸ List.mem_cons_of_mem m h0)

theorem mem_splitOn_not_mem {xs l : List Char} {x : Char} (h : l ∈ xs.splitOn x) :
    x ∉ l := by
  intro hx
  have := mem_splitOnP_false (p := (· == x)) (by simpa [List.splitOn] using h) x hx
  simp at this

theorem rdropWhile_fix_iff (p : α → Bool) (l : List α) :
    l.rdropWhile p = l ↔ ∀ c ∈ l.getLast?, p c = false := by
  rw [List.rdropWhile, List.reverse_eq_iff, dropWhile_fix_iff]
  simp [List.head?_reverse]

theorem intercalate_nil_eq (s : List Char) :
    List.intercalate s ([] : List (List Char)) = [] := by
  simp [List.intercalate]

theorem intercalate_single (s a : List Char) : List.intercalate s [a] = a := by
  simp [List.intercalate]

theorem intercalate_cons2 (s a b : List Char) (t : List (List Char)) :
    List.intercalate s (a :: b :: t) = a ++ s ++ List.intercalate s (b :: t) := by
  simp [List.intercalate, List.intersperse]

theorem intercalate_ne_nil {K : List (List Char)} (hK : K ≠ [])
    (h : ∀ l ∈ K, l ≠ []) : List.intercalate ['\n'] K ≠ [] := by
  cases K with
  | nil => exact absurd rfl hK
  | cons a t =>
    cases t with
    | nil =>
      rw [intercalate_single]
      exact h a (by simp)
    | cons b t2 =>
      rw [intercalate_cons2]
      have := h a (by simp)
      simp [this]

theorem drop_fix_intercalate {K : List (List Char)}
    (h : ∀ l ∈ K, l ≠ [] ∧ l.dropWhile pyWS = l) :
    (List.intercalate ['\n'] K).dropWhile pyWS = List.intercalate ['\n'] K := by
  cases K with
  | nil => simp [intercalate_nil_eq]
  | cons a t =>
    rw [dropWhile_fix_iff]
    intro c hc
    have ha := h a (by simp)
    have hhead : (List.intercalate ['\n'] (a :: t)).head? = a.head? := by
      cases t with
      | nil => rw [intercalate_single]
      | cons b t2 =>
        rw [intercalate_cons2, List.append_assoc, List.head?_append]
        obtain ⟨c0, xs, hx⟩ := List.exists_cons_of_ne_nil ha.1
        rw [hx]
        simp
    rw [hhead] at hc
    exact (dropWhile_fix_iff pyWS a).mp ha.2 c hc

theorem rdrop_fix_intercalate {K : List (List Char)}
    (h : ∀ l ∈ K, l ≠ [] ∧ l.rdropWhile pyWS = l) :
    (List.intercalate ['\n'] K).rdropWhile pyWS = List.intercalate ['\n'] K := by
  induction K with
  | nil => simp [intercalate_nil_eq, List.rdropWhile_nil]
  | cons a t ih =>
    cases t with
    | nil =>
      rw [intercalate_single]
      exact (h a (by simp)).2
    | cons b t2 =>
      have hrest := ih (fun l hl => h l (List.mem_cons_of_mem a hl))
      have hrestne : List.intercalate ['\n'] (b :: t2) ≠ [] :=
        intercalate_ne_nil (by simp) (fun l hl => (h l (List.mem_cons_of_mem a hl)).1)
      rw [intercalate_cons2, rdropWhile_fix_iff]
      intro c hc
      obtain ⟨y, hy⟩ : ∃ y, (List.intercalate ['\n'] (b :: t2)).getLast? = some y := by
        cases hx : (List.intercalate ['\n'] (b :: t2)).getLast? with
        | none => exact absurd (List.getLast?_eq_none_iff.mp hx) hrestne
        | some y => exact ⟨y, rfl⟩
      have hlast : (a ++ ['\n'] ++ List.intercalate ['\n'] (b :: t2)).getLast? =
          (List.intercalate ['\n'] (b :: t2)).getLast? := by
        rw [List.getLast?_append, List.getLast?_append, hy]
        rfl
      rw [hlast] at hc
      exact (rdropWhile_fix_iff pyWS _).mp hrest c hc

theorem kept_of_clean (K : List (List Char))
    (h : ∀ l ∈ K, l ≠ [] ∧ l.dropWhile pyWS = l ∧ l.rdropWhile pyWS = l ∧ '\n' ∉ l) :
    keptLines (String.mk (List.intercalate ['\n'] K)) = K := by
  unfold keptLines
  show (((stripL (List.intercalate ['\n'] K)).splitOn '\n').map stripL).filter
      (fun l => !l.isEmpty) = K
  cases hK : K with
  | nil =>
    rw [intercalate_nil_eq]
    decide
  | cons a t =>
    rw [← hK]
    have hstrip : stripL (List.intercalate ['\n'] K) = List.intercalate ['\n'] K := by
      rw [stripL, drop_fix_intercalate (fun l hl => ⟨(h l hl).1, (h l hl).2.1⟩),
        rdrop_fix_intercalate (fun l hl => ⟨(h l hl).1, (h l hl).2.2.1⟩)]
    rw [hstrip,
      List.splitOn_intercalate K '\n' (fun l hl => (h l hl).2.2.2) (by rw [hK]; simp)]
    have hmap : K.map stripL = K := by
      rw [show K.map stripL = K.map id from
        List.map_congr_left (fun l hl => stripL_eq_self (h l hl).2.1 (h l hl).2.2.1),
        List.map_id]
    rw [hmap, List.filter_eq_self.mpr]
    intro l hl
    simp [(h l hl).1]

theorem keptLines_clean (s : String) :
    ∀ l ∈ keptLines s,
      l ≠ [] ∧ l.dropWhile pyWS = l ∧ l.rdropWhile pyWS = l ∧ '\n' ∉ l := by
  intro l hl
  obtain ⟨hmem, hcond⟩ := List.mem_filter.mp hl
  obtain ⟨m, hm, rfl⟩ := List.mem_map.mp hmem
  refine ⟨by simpa using hcond, stripL_drop_fix m, stripL_rdrop_fix m, ?_⟩
  intro hnl
  exact mem_splitOn_not_mem hm ((stripL_sublist m).subset hnl)

theorem keptLines_normalize (s : String) :
    keptLines (normalize_output s) = keptLines s := by
  rw [normalize_output_eq_kept s]
  exact kept_of_clean (keptLines s) (keptLines_clean s)

/-- C10: the test harness's normalization is idempotent, and every line of a
normalized output is nonempty (unless the whole output is empty) and carries
no leading or trailing whitespace. -/
theorem normalize_output_idem (s : String) :
    normalize_output (normalize_output s) = normalize_output s ∧
    ∀ l ∈ (normalize_output s).data.splitOn '\n',
      stripL l = l ∧ (l = [] → normalize_output s = "") := by
  constructor
  · rw [normalize_output_eq_kept (normalize_output s), keptLines_normalize,
      ← normalize_output_eq_kept]
  · intro l hl
    have hdata : (normalize_output s).data = List.intercalate ['\n'] (keptLines s) := by
      rw [normalize_output_eq_kept]
    rw [hdata] at hl
    cases hK : keptLines s with
    | nil =>
      rw [hK, intercalate_nil_eq] at hl
      have : l = [] := by
        have : (List.splitOn '\n' ([] : List Char)) = [[]] := by decide
        rw [this] at hl
        simpa using hl
      subst this
      refine ⟨rfl, fun _ => ?_⟩
      rw [normalize_output_eq_kept, hK, intercalate_nil_eq]
    | cons a t =>
      have hcl : ∀ m ∈ (a :: t), '\n' ∉ m := fun m hm =>
        (keptLines_clean s m (by rw [hK]; exact hm)).2.2.2
      rw [hK, List.splitOn_intercalate (a :: t) '\n' hcl (by simp)] at hl
      have hprops := keptLines_clean s l (by rw [hK]; exact hl)
      exact ⟨stripL_eq_self hprops.2.1 hprops.2.2.1, fun hle => absurd hle hprops.1⟩

/-- Witness for C10 at a concrete input: normalization of "  a \n\n b  " is
idempotent and its first line "a" is nonempty and stripped. -/
theorem normalize_output_idem_witness :
    normalize_output (normalize_output "  a \n\n b  ") = normalize_output "  a \n\n b  " ∧
    stripL ['a'] = ['a'] :=
  ⟨(normalize_output_idem "  a \n\n b  ").1,
   ((normalize_output_idem "  a \n\n b  ").2 ['a'] (by decide)).1⟩

/-- C3 counterexample: the harness's equality is not byte-identity: the two
distinct strings "a " and "a" normalize to the same output, refuting
"normalize_output(x) = normalize_output(y) if and only if x = y". -/
theorem normalize_output_not_injective :
    normalize_output "a " = normalize_output "a" ∧ "a " ≠ "a" := by
  constructor
  · decide
  · decide

/-- C3 (amended): byte-identical outputs are always accepted by the harness's
normalized comparison (x = y implies equal normalizations), but the converse
fails: the comparison is strictly coarser than byte identity, identifying
outputs that differ only in per-line leading/trailing whitespace or empty
lines, as "a " and "a" show. -/
theorem normalize_output_eq_of_eq :
    (∀ x y : String, x = y → normalize_output x = normalize_output y) ∧
    (∃ x y : String, normalize_output x = normalize_output y ∧ x ≠ y) := by
  refine ⟨fun x y h => by rw [h], ⟨"a ", "a", ?_, ?_⟩⟩
  · decide
  · decide

/-- Witness for the amended C3: byte-identical inputs normalize identically. -/
theorem normalize_output_eq_of_eq_witness :
    normalize_output "b" = normalize_output "b" :=
  normalize_output_eq_of_eq.1 "b" "b" rfl

/-- Embedding of the output-classification logic of `test_file` from
`source/test_analyzers.py` (lines 11-41), as a function of the combined
stdout+stderr text of the `check` subprocess.  The subprocess invocation and
the timeout/exception branches are effects outside the model; given the
captured output the function is pure. -/
def test_file_classify (output : String) : Bool × String :=
  if containsSub output "Parse error" then (false, "Parse error")
  else if containsSub output "Check passed" then (true, "Passed")
  else if containsSub output "Check failed" then
    let error_lines := (output.splitOn "\n").filter (fun line => line.startsWith "error[")
    (false, "Failed with " ++ toString error_lines.length ++ " error(s)")
  else (false, "Unknown result")

/-- The `check`-command contract as the claim states it: 'Parse error'
dominates; otherwise success exactly on 'Check passed'; otherwise a 'Check
failed' output reports the number of output lines starting with `error[`;
anything else is an unknown result. -/
def checkOutputContract (output : String) : Bool × String :=
  if containsSub output "Parse error" then (false, "Parse error")
  else if containsSub output "Check passed" then (true, "Passed")
  else if containsSub output "Check failed" then
    (false, "Failed with " ++
      toString ((output.splitOn "\n").countP (fun line => line.startsWith "error[")) ++
      " error(s)")
  else (false, "Unknown result")

/-- C4: test_file's classification agrees with the check-command contract on
every output text, and it reports success exactly when the output has no
'Parse error' and contains 'Check passed'. -/
theorem test_file_classify_contract (out : String) :
    test_file_classify out = checkOutputContract out ∧
    ((test_file_classify out).1 = true ↔
      (containsSub out "Parse error" = false ∧ containsSub out "Check passed" = true)) := by
  unfold test_file_classify checkOutputContract
  split_ifs with h1 h2 h3 <;>
    simp_all [List.countP_eq_length_filter]

/-- Value of a decimal digit string, as Python's `int()` computes it. -/
def natOfDigits (ds : List Char) : Nat := ds.foldl (fun n c => 10 * n + (c.toNat - 48)) 0

/-- One attempt of the regular expression `at (\d+):(\d+)` anchored at a
position: the literal characters 'a' 't' ' ', a nonempty maximal digit run,
':', and a nonempty maximal digit run.  Maximal munch is equivalent to the
regex's backtracking because a digit can never satisfy the following ':'. -/
def matchAt (cs : List Char) : Option (Nat × Nat) :=
  match cs with
  | c1 :: c2 :: c3 :: rest =>
    if c1 = 'a' ∧ c2 = 't' ∧ c3 = ' ' then
      if (rest.takeWhile Char.isDigit).isEmpty then none
      else
        match rest.dropWhile Char.isDigit with
        | c4 :: rest2 =>
          if c4 = ':' then
            if (rest2.takeWhile Char.isDigit).isEmpty then none
            else some (natOfDigits (rest.takeWhile Char.isDigit),
                       natOfDigits (rest2.takeWhile Char.isDigit))
          else none
        | [] => none
    else none
  | _ => none

/-- `re.search` semantics: try `matchAt` at every position, left to right. -/
def searchFrom : List Char → Option (Nat × Nat)
  | [] => none
  | c :: cs =>
    match matchAt (c :: cs) with
    | some r => some r
    | none => searchFrom cs

/-- Embedding of `extract_error_location` from `source/check_parse_errors.py`
(lines 33-38): search the line for `at (\d+):(\d+)` and return the two
captured numbers, else the pair of Nones. -/
def extract_error_location (error_line : String) : Option Nat × Option Nat :=
  match searchFrom error_line.data with
  | some (l, c) => (some l, some c)
  | none => (none, none)

theorem searchFrom_skip {c : Char} {cs : List Char} (h : matchAt (c :: cs) = none) :
    searchFrom (c :: cs) = searchFrom cs := by
  rw [searchFrom, h]

theorem takeWhile_nil_of_head {p : Char → Bool} {l : List Char}
    (h : ∀ c ∈ l.head?, p c = false) : l.takeWhile p = [] := by
  cases l with
  | nil => rfl
  | cons c cs => exact List.takeWhile_cons_of_neg (by simpa using h c (by simp))

theorem matchAt_found {d1 d2 tail : List Char} (h1 : d1 ≠ [])
    (hd1 : ∀ c ∈ d1, c.isDigit = true) (h2 : d2 ≠ [])
    (hd2 : ∀ c ∈ d2, c.isDigit = true) (htail : ∀ c ∈ tail.head?, c.isDigit = false) :
    matchAt ('a' :: 't' :: ' ' :: (d1 ++ ':' :: (d2 ++ tail))) =
      some (natOfDigits d1, natOfDigits d2) := by
  have ht1 : (d1 ++ ':' :: (d2 ++ tail)).takeWhile Char.isDigit = d1 := by
    rw [List.takeWhile_append_of_pos hd1, List.takeWhile_cons_of_neg (by decide)]
    simp
  have ht2 : (d1 ++ ':' :: (d2 ++ tail)).dropWhile Char.isDigit = ':' :: (d2 ++ tail) := by
    rw [List.dropWhile_append_of_pos hd1, List.dropWhile_cons_of_neg (by decide)]
  have ht3 : (d2 ++ tail).takeWhile Char.isDigit = d2 := by
    rw [List.takeWhile_append_of_pos hd2, takeWhile_nil_of_head htail]
    simp
  rw [matchAt]
  simp only [ht1, ht2, ht3]
  simp [h1, h2]

/-- A character list contains a substring of the diagnostic shape
`at <digits>:<digits>` (with both digit runs nonempty). -/
def HasLocPattern (cs : List Char) : Prop :=
  ∃ pre d1 d2 rest, cs = pre ++ 'a' :: 't' :: ' ' :: (d1 ++ ':' :: (d2 ++ rest)) ∧
    d1 ≠ [] ∧ (∀ c ∈ d1, c.isDigit = true) ∧ d2 ≠ [] ∧ (∀ c ∈ d2, c.isDigit = true)

theorem matchAt_some_decomp {cs : List Char} {r : Nat × Nat} (h : matchAt cs = some r) :
    ∃ d1 d2 rest, cs = 'a' :: 't' :: ' ' :: (d1 ++ ':' :: (d2 ++ rest)) ∧
      d1 ≠ [] ∧ (∀ c ∈ d1, c.isDigit = true) ∧ d2 ≠ [] ∧ (∀ c ∈ d2, c.isDigit = true) := by
  match cs with
  | [] => simp [matchAt] at h
  | [c1] => simp [matchAt] at h
  | [c1, c2] => simp [matchAt] at h
  | c1 :: c2 :: c3 :: rest =>
    rw [matchAt] at h
    split_ifs at h with habc hd1
    obtain ⟨rfl, rfl, rfl⟩ := habc
    split at h
    case _ c4 rest2 hdrop =>
      split_ifs at h with hc4 hd2
      subst hc4
      refine ⟨rest.takeWhile Char.isDigit, rest2.takeWhile Char.isDigit,
        rest2.dropWhile Char.isDigit, ?_, ?_, ?_, ?_, ?_⟩
      · rw [List.takeWhile_append_dropWhile (p := Char.isDigit) (l := rest2),
          ← hdrop, List.takeWhile_append_dropWhile]
      · simpa using hd1
      · intro c hc
        have := List.all_takeWhile (p := Char.isDigit) (l := rest)
        exact (List.all_eq_true.mp this) c hc
      · simpa using hd2
      · intro c hc
        have := List.all_takeWhile (p := Char.isDigit) (l := rest2)
        exact (List.all_eq_true.mp this) c hc
    case _ hdrop => exact Option.noConfusion h

theorem searchFrom_some_decomp {cs : List Char} {r : Nat × Nat}
    (h : searchFrom cs = some r) :
    ∃ pre suf, cs = pre ++ suf ∧ matchAt suf = some r := by
  induction cs with
  | nil => simp [searchFrom] at h
  | cons c cs ih =>
    rw [searchFrom] at h
    cases hm : matchAt (c :: cs) with
    | some r2 =>
      rw [hm] at h
      exact ⟨[], c :: cs, by simp, by rw [hm, ← h]⟩
    | none =>
      rw [hm] at h
      obtain ⟨pre, suf, heq, hmat⟩ := ih h
      exact ⟨c :: pre, suf, by simp [heq], hmat⟩

theorem searchFrom_none_of_no_pattern {cs : List Char} (h : ¬ HasLocPattern cs) :
    searchFrom cs = none := by
  cases hs : searchFrom cs with
  | none => rfl
  | some r =>
    obtain ⟨pre, suf, heq, hmat⟩ := searchFrom_some_decomp hs
    obtain ⟨d1, d2, rest, hsuf, h1, hd1, h2, hd2⟩ := matchAt_some_decomp hmat
    exact absurd ⟨pre, d1, d2, rest, by rw [heq, hsuf], h1, hd1, h2, hd2⟩ h

theorem extract_error_location_found (d1 d2 msg : String) (h1 : d1.data ≠ [])
    (hd1 : ∀ c ∈ d1.data, c.isDigit = true) (h2 : d2.data ≠ [])
    (hd2 : ∀ c ∈ d2.data, c.isDigit = true) :
    extract_error_location ("Parse error at " ++ d1 ++ ":" ++ d2 ++ ": " ++ msg) =
      (some (natOfDigits d1.data), some (natOfDigits d2.data)) := by
  have hdata : ("Parse error at " ++ d1 ++ ":" ++ d2 ++ ": " ++ msg).data =
      'P' :: 'a' :: 'r' :: 's' :: 'e' :: ' ' :: 'e' :: 'r' :: 'r' :: 'o' :: 'r' :: ' ' ::
      'a' :: 't' :: ' ' :: (d1.data ++ ':' :: (d2.data ++ (':' :: ' ' :: msg.data))) := by
    simp [String.data_append]
  have hmatch : matchAt ('a' :: 't' :: ' ' ::
      (d1.data ++ ':' :: (d2.data ++ (':' :: ' ' :: msg.data)))) =
      some (natOfDigits d1.data, natOfDigits d2.data) :=
    matchAt_found h1 hd1 h2 hd2 (by simp)
  rw [extract_error_location, hdata]
  rw [searchFrom_skip (by rw [matchAt]; rfl), searchFrom_skip (by rw [matchAt]; rfl),
    searchFrom_skip (by rw [matchAt]; rfl), searchFrom_skip (by rw [matchAt]; rfl),
    searchFrom_skip (by rw [matchAt]; rfl), searchFrom_skip (by rw [matchAt]; rfl),
    searchFrom_skip (by rw [matchAt]; rfl), searchFrom_skip (by rw [matchAt]; rfl),
    searchFrom_skip (by rw [matchAt]; rfl), searchFrom_skip (by rw [matchAt]; rfl),
    searchFrom_skip (by rw [matchAt]; rfl), searchFrom_skip (by rw [matchAt]; rfl)]
  rw [show searchFrom ('a' :: 't' :: ' ' ::
      (d1.data ++ ':' :: (d2.data ++ (':' :: ' ' :: msg.data)))) =
      some (natOfDigits d1.data, natOfDigits d2.data) from by rw [searchFrom, hmatch]]

/-- C5: extract_error_location returns the two numbers of every diagnostic of
the spec's shape `Parse error at LINE:COL: <message>` (the digit strings are
read in decimal), and returns (None, None) on every line containing no
substring of the shape `at <digits>:<digits>`. -/
theorem extract_error_location_spec :
    (∀ d1 d2 msg : String, d1.data ≠ [] → (∀ c ∈ d1.data, c.isDigit = true) →
      d2.data ≠ [] → (∀ c ∈ d2.data, c.isDigit = true) →
      extract_error_location ("Parse error at " ++ d1 ++ ":" ++ d2 ++ ": " ++ msg) =
        (some (natOfDigits d1.data), some (natOfDigits d2.data))) ∧
    (∀ line : String, ¬ HasLocPattern line.data →
      extract_error_location line = (none, none)) := by
  constructor
  · exact extract_error_location_found
  · intro line h
    rw [extract_error_location, searchFrom_none_of_no_pattern h]

/-- Witness for C5: the concrete diagnostic `Parse error at 12:3: boom`
yields (12, 3), and the empty line yields (None, None). -/
theorem extract_error_location_spec_witness :
    extract_error_location "Parse error at 12:3: boom" = (some 12, some 3) ∧
    extract_error_location "" = (none, none) := by
  constructor
  · have h := extract_error_location_spec.1 "12" "3" "boom" (by decide) (by decide)
      (by decide) (by decide)
    rw [show ("Parse error at " ++ "12" ++ ":" ++ "3" ++ ": " ++ "boom" : String) =
      "Parse error at 12:3: boom" from by decide] at h
    rw [h]
    decide
  · refine extract_error_location_spec.2 "" ?_
    rintro ⟨pre, d1, d2, rest, heq, h1, hd1, h2, hd2⟩
    have hnil : ("" : String).data = [] := rfl
    rw [hnil] at heq
    have := heq.symm
    simp at this

/-- A test case of `source/tests/minimal/run_tests.py`: a name, a source
file, and (description, pattern) checks against the generated output. -/
structure TestCase where
  name : String
  file : String
  checks : List (String × String)

/-- The observable outcome of the compiler subprocess in `run_test`:
its exit code, its stderr, and the contents of `dist/lib.rs` when that file
exists and is readable (`none` otherwise).  The subprocess spawn, timeout
and exception branches are effects outside the model. -/
structure CompilerRun where
  returncode : Int
  stderr : String
  output : Option String

/-- Embedding of `run_test` from `source/tests/minimal/run_tests.py` (lines
30-82): fail on a non-zero exit code or a missing output file, otherwise
check every pattern for substring occurrence in the generated output,
collecting an error per missing pattern (the 500-character truncation of
stderr in the failure message is not modelled). -/
def run_test (test : TestCase) (run : CompilerRun) : Bool × List String :=
  if run.returncode ≠ 0 then
    (false, ["Compilation failed with code " ++ toString run.returncode] ++
      (if run.stderr ≠ "" then ["Error output: " ++ run.stderr] else []))
  else
    match run.output with
    | none => (false, ["No output file generated"])
    | some out =>
      test.checks.foldl (fun acc c =>
        if containsSub out c.2 then acc
        else (false, acc.2 ++ ["Expected pattern not found: " ++ c.2])) (true, [])

/-- The 'Macro Calls' test case of `run_tests.py` (lines 107-115), with its
four macro-suffix checks. -/
def macroCallsTest : TestCase :=
  { name := "Macro Calls"
    file := "test_macro_calls.lux"
    checks := [("format! has suffix", "format!("),
               ("println! has suffix", "println!("),
               ("vec! has suffix", "vec!["),
               ("panic! has suffix", "panic!(")] }

theorem run_test_foldl_fst (out : String) (checks : List (String × String)) :
    ∀ (b : Bool) (es : List String),
      (checks.foldl (fun acc c =>
        if containsSub out c.2 then acc
        else (false, acc.2 ++ ["Expected pattern not found: " ++ c.2])) (b, es)).1 =
      (b && checks.all (fun c => containsSub out c.2)) := by
  induction checks with
  | nil => intro b es; simp
  | cons c cs ih =>
    intro b es
    rw [List.foldl_cons, List.all_cons]
    by_cases hc : containsSub out c.2 = true
    · rw [if_pos hc, ih, hc, Bool.true_and]
    · rw [if_neg hc, ih]
      simp [Bool.eq_false_iff.mpr hc]

/-- C6: with a zero exit code and an existing, readable output file, run_test
succeeds iff every check pattern occurs in the output; in particular the
'Macro Calls' case succeeds exactly when the output contains "format!(",
"println!(", "vec![" and "panic!(". -/
theorem run_test_success_iff :
    (∀ (t : TestCase) (r : CompilerRun) (out : String),
      r.returncode = 0 → r.output = some out →
      ((run_test t r).1 = true ↔ ∀ c ∈ t.checks, containsSub out c.2 = true)) ∧
    (∀ (r : CompilerRun) (out : String),
      r.returncode = 0 → r.output = some out →
      ((run_test macroCallsTest r).1 = true ↔
        (containsSub out "format!(" = true ∧ containsSub out "println!(" = true ∧
         containsSub out "vec![" = true ∧ containsSub out "panic!(" = true))) := by
  have main : ∀ (t : TestCase) (r : CompilerRun) (out : String),
      r.returncode = 0 → r.output = some out →
      ((run_test t r).1 = true ↔ ∀ c ∈ t.checks, containsSub out c.2 = true) := by
    intro t r out hrc hout
    rw [run_test, if_neg (by simp [hrc]), hout, run_test_foldl_fst, Bool.true_and,
      List.all_eq_true]
  refine ⟨main, fun r out hrc hout => ?_⟩
  rw [main macroCallsTest r out hrc hout]
  constructor
  · intro h
    exact ⟨h ("format! has suffix", "format!(") (by simp [macroCallsTest]),
      h ("println! has suffix", "println!(") (by simp [macroCallsTest]),
      h ("vec! has suffix", "vec![") (by simp [macroCallsTest]),
      h ("panic! has suffix", "panic!(") (by simp [macroCallsTest])⟩
  · intro ⟨hf, hp, hv, hpa⟩ c hc
    simp only [macroCallsTest, List.mem_cons, List.not_mem_nil, or_false] at hc
    rcases hc with rfl | rfl | rfl | rfl
    · exact hf
    · exact hp
    · exact hv
    · exact hpa

/-- Witness for C6: a run with exit code 0 whose output contains all four
macro patterns makes the 'Macro Calls' case pass. -/
theorem run_test_success_iff_witness :
    (run_test macroCallsTest
      { returncode := 0, stderr := "",
        output := some "format!(x) println!(y) vec![z] panic!(w)" }).1 = true :=
  (run_test_success_iff.2 _ "format!(x) println!(y) vec![z] panic!(w)" rfl rfl).mpr
    (by refine ⟨?_, ?_, ?_, ?_⟩ <;> decide)

/-- The observable environment of one `test_codegen` run from
`source/test_codegen.py` (lines 17-96): whether the source and the two
expected files exist, the build subprocess's exit code and stderr, the
contents of the two generated files when present in the temporary output
directory, and the two expected texts.  File reads, the diff text produced
by difflib and the cleanup of the temporary directory are effects outside
the model; the failure messages carrying them are abstracted to markers. -/
structure CodegenEnv where
  sourceExists : Bool
  expectedBabelExists : Bool
  expectedSwcExists : Bool
  buildReturncode : Int
  buildStderr : String
  babelOut : Option String
  swcOut : Option String
  expectedBabel : String
  expectedSwc : String

/-- Embedding of `test_codegen`: missing input files fail early; a non-zero
build exit code fails; a missing generated file fails; otherwise the
normalized generated texts are compared with the normalized expected
texts. -/
def test_codegen (e : CodegenEnv) : Bool × Option String :=
  if ¬ e.sourceExists then (false, some "Source file not found")
  else if ¬ e.expectedBabelExists then (false, some "Expected Babel output not found")
  else if ¬ e.expectedSwcExists then (false, some "Expected SWC output not found")
  else if e.buildReturncode ≠ 0 then (false, some ("Build failed:\n" ++ e.buildStderr))
  else
    match e.babelOut, e.swcOut with
    | some babel, some swc =>
      if normalize_output babel = normalize_output e.expectedBabel ∧
          normalize_output swc = normalize_output e.expectedSwc then (true, none)
      else (false, some "output mismatch")
    | _, _ => (false, some "Output files not generated")

/-- C7: test_codegen never compares outputs on a failed build: with the
source and expected files present, it fails whenever the build exits
non-zero, fails whenever an output file is missing after a zero exit, and
compares normalized texts exactly in the remaining case. -/
theorem test_codegen_gating (e : CodegenEnv) (hsrc : e.sourceExists = true)
    (hexb : e.expectedBabelExists = true) (hexs : e.expectedSwcExists = true) :
    (e.buildReturncode ≠ 0 → (test_codegen e).1 = false) ∧
    (e.buildReturncode = 0 → (e.babelOut = none ∨ e.swcOut = none) →
      (test_codegen e).1 = false) ∧
    (∀ babel swc, e.buildReturncode = 0 → e.babelOut = some babel →
      e.swcOut = some swc →
      ((test_codegen e).1 = true ↔
        (normalize_output babel = normalize_output e.expectedBabel ∧
         normalize_output swc = normalize_output e.expectedSwc))) := by
  refine ⟨fun hrc => ?_, fun hrc hmiss => ?_, fun babel swc hrc hb hs => ?_⟩
  · rw [test_codegen, if_neg (by simp [hsrc]), if_neg (by simp [hexb]),
      if_neg (by simp [hexs]), if_pos hrc]
  · rw [test_codegen, if_neg (by simp [hsrc]), if_neg (by simp [hexb]),
      if_neg (by simp [hexs]), if_neg (by simp [hrc])]
    rcases hmiss with hb | hs
    · rw [hb]
    · rw [hs]
      cases e.babelOut <;> rfl
  · rw [test_codegen, if_neg (by simp [hsrc]), if_neg (by simp [hexb]),
      if_neg (by simp [hexs]), if_neg (by simp [hrc]), hb, hs]
    by_cases hcmp : normalize_output babel = normalize_output e.expectedBabel ∧
        normalize_output swc = normalize_output e.expectedSwc
    · simp [hcmp]
    · simp only [hcmp, if_false, iff_false]
      simp [hcmp]

/-- A concrete environment whose build failed with exit code 1. -/
def failedBuildEnv : CodegenEnv :=
  { sourceExists := true, expectedBabelExists := true, expectedSwcExists := true,
    buildReturncode := 1, buildStderr := "boom", babelOut := none, swcOut := none,
    expectedBabel := "a", expectedSwc := "b" }

/-- A concrete environment whose build succeeded with matching outputs. -/
def matchingBuildEnv : CodegenEnv :=
  { sourceExists := true, expectedBabelExists := true, expectedSwcExists := true,
    buildReturncode := 0, buildStderr := "", babelOut := some "a ", swcOut := some "b",
    expectedBabel := "a", expectedSwc := "b" }

/-- Witness for C7 at two concrete environments: a failed build is reported
as failure, and a zero-exit build with matching outputs succeeds. -/
theorem test_codegen_gating_witness :
    (test_codegen failedBuildEnv).1 = false ∧
    (test_codegen matchingBuildEnv).1 = true :=
  ⟨(test_codegen_gating failedBuildEnv rfl rfl rfl).1 (by decide),
   ((test_codegen_gating matchingBuildEnv rfl rfl rfl).2.2 "a " "b" rfl rfl rfl).mpr
     (by refine ⟨?_, ?_⟩ <;> decide)⟩

/-- The final path component (`Path.name`): the part after the last '/'. -/
def pathName (p : String) : String := String.mk ((p.data.splitOn '/').getLastD [])

/-- `path.parent / newName`: replace the final path component. -/
def pathParentJoin (p newName : String) : String :=
  String.mk (List.intercalate ['/'] ((p.data.splitOn '/').dropLast ++ [newName.data]))

/-- The stem of a file name (`Path.stem`): the name up to its last '.',
except that a dot at position 0 (a hidden file) is not a suffix separator. -/
def stemOf (name : List Char) : List Char :=
  let upto := name.rdropWhile (fun c => c != '.')
  if upto.length ≥ 2 then upto.dropLast else name

/-- `Path.with_suffix(".lux")` on a path string. -/
def with_suffix_lux (p : String) : String :=
  pathParentJoin p (String.mk (stemOf (pathName p).data) ++ ".lux")

/-- Python's `str.replace(pat, rep)`: replace non-overlapping occurrences,
left to right.  The recursion is driven by a fuel counter equal to the
length of the scanned text so the definition stays structural (one fuel
unit is spent per consumed character, so the fuel never runs out). -/
def replaceLoop (pat rep : List Char) : Nat → List Char → List Char
  | 0, s => s
  | _ + 1, [] => []
  | fuel + 1, c :: cs =>
    if pat ≠ [] ∧ pat <+: (c :: cs) then
      rep ++ replaceLoop pat rep fuel ((c :: cs).drop pat.length)
    else c :: replaceLoop pat rep fuel cs

def pyReplace (s pat rep : String) : String :=
  String.mk (replaceLoop pat.data rep.data s.data.length s.data)

/-- The mutable state of a renaming run: the set of existing paths (the file
system, as a list of path strings), the count of performed renames, and the
collected error messages. -/
structure RenameState where
  fs : List String
  renamed : Nat
  errors : List String

/-- One iteration of the loop of `rename_rsc_to_lux` from
`rename_extensions.py` (lines 8-48): skip with an error when the `.lux`
target already exists, otherwise rename (an `OSError` of the rename itself,
modelled as the source being absent, is caught and recorded). -/
def rename_rsc_step (st : RenameState) (rsc_file : String) : RenameState :=
  let lux_file := with_suffix_lux rsc_file
  if lux_file ∈ st.fs then
    { st with errors := st.errors ++ ["Target already exists: " ++ lux_file] }
  else if rsc_file ∈ st.fs then
    { st with fs := st.fs.erase rsc_file ++ [lux_file], renamed := st.renamed + 1 }
  else
    { st with errors := st.errors ++ ["Error renaming " ++ rsc_file ++ ": file not found"] }

/-- `rename_rsc_to_lux`: fold the step over all paths of the tree whose
final component ends in `.rsc` (the result of `rglob("*.rsc")`). -/
def rename_rsc_to_lux (fs0 : List String) : RenameState :=
  (fs0.filter (fun p => decide (".rsc".data <:+ p.data))).foldl rename_rsc_step ⟨fs0, 0, []⟩

/-- The rustscript→reluxscript renaming of a file name used by
`scripts/rename_files.py` (both casings are replaced). -/
def renluxName (name : String) : String :=
  pyReplace (pyReplace name "rustscript" "reluxscript") "RustScript" "ReluxScript"

/-- The renamed target path of an entry of `rename_files`. -/
def renluxTarget (old_path : String) : String :=
  pathParentJoin old_path (renluxName (pathName old_path))

/-- One iteration of either loop of `rename_files` from
`scripts/rename_files.py` (lines 15-109): error when the entry does not
exist, error and skip when the renamed target exists, otherwise rename.
The directory loop and the file loop differ only in their message texts,
which are condensed here. -/
def rename_files_step (st : RenameState) (old_path : String) : RenameState :=
  if old_path ∉ st.fs then
    { st with errors := st.errors ++ ["File not found: " ++ old_path] }
  else if renluxTarget old_path ∈ st.fs then
    { st with errors := st.errors ++ ["Target already exists: " ++ renluxTarget old_path] }
  else
    { st with fs := st.fs.erase old_path ++ [renluxTarget old_path],
              renamed := st.renamed + 1 }

/-- The hard-coded directory list of `rename_files`. -/
def directories_to_rename : List String :=
  ["source/tests/codegen/rustscript-plugin-minimact"]

/-- The hard-coded file list of `rename_files`. -/
def files_to_rename : List String :=
  ["docs/BABEL_PLUGIN_TO_RUSTSCRIPT_MIGRATION.md",
   "docs/babel-to-rustscript.md",
   "docs/rustscript-codegen-module.md",
   "docs/rustscript-compiler-implementation.md",
   "docs/rustscript-developers-guide.md",
   "docs/rustscript-enhancement-plan-2.md",
   "docs/rustscript-enhancement-plan.md",
   "docs/rustscript-gaps.md",
   "docs/rustscript-guide-for-babelers.md",
   "docs/rustscript-parser-module.md",
   "docs/rustscript-plugin-enhancements.md",
   "docs/rustscript-priority-1-plan.md",
   "docs/rustscript-specification.md",
   "docs/rustscript-type-aware-codegen.md"]

/-- `rename_files`: directories first, then files, over one shared state. -/
def rename_files (fs0 : List String) : RenameState :=
  (directories_to_rename ++ files_to_rename).foldl rename_files_step ⟨fs0, 0, []⟩

/-- The number of entries the `rename_rsc_to_lux` loop actually renames,
threading the evolving state. -/
def rscRenameCount : RenameState → List String → Nat
  | _, [] => 0
  | st, f :: rest =>
    (if with_suffix_lux f ∉ st.fs ∧ f ∈ st.fs then 1 else 0) +
      rscRenameCount (rename_rsc_step st f) rest

/-- The number of entries the `rename_files` loop actually renames. -/
def filesRenameCount : RenameState → List String → Nat
  | _, [] => 0
  | st, f :: rest =>
    (if f ∈ st.fs ∧ renluxTarget f ∉ st.fs then 1 else 0) +
      filesRenameCount (rename_files_step st f) rest

theorem rename_rsc_step_renamed (st : RenameState) (f : String) :
    (rename_rsc_step st f).renamed =
      st.renamed + (if with_suffix_lux f ∉ st.fs ∧ f ∈ st.fs then 1 else 0) := by
  rw [rename_rsc_step]
  split_ifs with h1 h2 h3 <;> simp_all

theorem rename_files_step_renamed (st : RenameState) (f : String) :
    (rename_files_step st f).renamed =
      st.renamed + (if f ∈ st.fs ∧ renluxTarget f ∉ st.fs then 1 else 0) := by
  rw [rename_files_step]
  split_ifs with h1 h2 h3 <;> simp_all

theorem rsc_foldl_renamed (files : List String) :
    ∀ st : RenameState,
      (files.foldl rename_rsc_step st).renamed = st.renamed + rscRenameCount st files := by
  induction files with
  | nil => intro st; simp [rscRenameCount]
  | cons f rest ih =>
    intro st
    rw [List.foldl_cons, ih, rscRenameCount, rename_rsc_step_renamed]
    omega

theorem files_foldl_renamed (items : List String) :
    ∀ st : RenameState,
      (items.foldl rename_files_step st).renamed =
        st.renamed + filesRenameCount st items := by
  induction items with
  | nil => intro st; simp [filesRenameCount]
  | cons f rest ih =>
    intro st
    rw [List.foldl_cons, ih, filesRenameCount, rename_files_step_renamed]
    omega

/-- C8: the renaming utilities never overwrite an existing target: whenever
the renamed target of an entry already exists, both step functions record an
error and leave the file system and the rename count untouched; and the
returned renamed counts are exactly the numbers of entries actually renamed
by the two loops. -/
theorem rename_never_overwrites (st : RenameState) (src : String) :
    (with_suffix_lux src ∈ st.fs →
      rename_rsc_step st src =
        { st with errors := st.errors ++
            ["Target already exists: " ++ with_suffix_lux src] }) ∧
    (src ∈ st.fs → renluxTarget src ∈ st.fs →
      rename_files_step st src =
        { st with errors := st.errors ++
            ["Target already exists: " ++ renluxTarget src] }) ∧
    (∀ files : List String,
      (files.foldl rename_rsc_step st).renamed = st.renamed + rscRenameCount st files) ∧
    (∀ items : List String,
      (items.foldl rename_files_step st).renamed =
        st.renamed + filesRenameCount st items) := by
  refine ⟨fun h => ?_, fun h1 h2 => ?_, fun files => rsc_foldl_renamed files st,
    fun items => files_foldl_renamed items st⟩
  · rw [rename_rsc_step, if_pos h]
  · rw [rename_files_step, if_neg (not_not_intro h1), if_pos h2]

/-- Witness for C8 with a file system already containing both `a.rsc` and
its target `a.lux`: the rsc step reports the collision without renaming, the
rename_files step does the same (its target of `a.rsc` is `a.rsc` itself,
which exists), and on the one-element list the loop renames nothing. -/
theorem rename_never_overwrites_witness :
    rename_rsc_step ⟨["a.rsc", "a.lux"], 0, []⟩ "a.rsc" =
      ⟨["a.rsc", "a.lux"], 0, ["Target already exists: " ++ with_suffix_lux "a.rsc"]⟩ ∧
    rename_files_step ⟨["a.rsc", "a.lux"], 0, []⟩ "a.rsc" =
      ⟨["a.rsc", "a.lux"], 0, ["Target already exists: " ++ renluxTarget "a.rsc"]⟩ ∧
    ((["a.rsc"] : List String).foldl rename_rsc_step ⟨["a.rsc", "a.lux"], 0, []⟩).renamed =
      0 + rscRenameCount ⟨["a.rsc", "a.lux"], 0, []⟩ ["a.rsc"] :=
  ⟨(rename_never_overwrites ⟨["a.rsc", "a.lux"], 0, []⟩ "a.rsc").1 (by decide),
   (rename_never_overwrites ⟨["a.rsc", "a.lux"], 0, []⟩ "a.rsc").2.1 (by decide) (by decide),
   (rename_never_overwrites ⟨["a.rsc", "a.lux"], 0, []⟩ "a.rsc").2.2.1 ["a.rsc"]⟩

/-- Python's `range(a, b)` over integers. -/
def intRange (a b : Int) : List Int :=
  (List.range (b - a).toNat).map (fun (k : Nat) => a + (k : Int))

/-- `f"{n:4d}"`: decimal rendering right-aligned in a field of width 4. -/
def padLeft4 (s : String) : String :=
  if s.length < 4 then String.mk (List.replicate (4 - s.length) ' ') ++ s else s

/-- Embedding of `get_code_snippet` from `source/check_parse_errors.py`
(lines 40-66): `None` when the error line number is out of range, otherwise
up to three numbered context lines around it (each right-stripped), plus a
column pointer line when `col_num` is truthy.  The file read (and the
`except` clause around it) is an effect outside the model: the file's lines
are passed in.  `line_num` and `col_num` are Python ints, modelled as
`Int`. -/
def get_code_snippet (lines : List String) (line_num col_num : Int) : Option String :=
  if line_num ≤ 0 ∨ line_num > lines.length then none
  else
    let start := max 0 (line_num - 2)
    let stop := min (lines.length : Int) (line_num + 1)
    let snippet := (intRange start stop).map (fun i =>
      (if i = line_num - 1 then ">>> " else "    ") ++
        padLeft4 (toString (i + 1)) ++ ": " ++
        String.mk ((lines.getD i.toNat "").data.rdropWhile pyWS))
    let snippet2 := if col_num ≠ 0 then
        snippet ++ [String.mk (List.replicate (col_num + 10).toNat ' ' ++ ['^'])]
      else snippet
    some (String.mk (List.intercalate ['\n'] (snippet2.map String.data)))

/-- C9: get_code_snippet is bounds-safe: it returns None exactly on
non-positive or too-large line numbers; otherwise every index of its context
window lies inside the line list, the window holds at most three numbered
lines, and a snippet is produced. -/
theorem get_code_snippet_safe (lines : List String) (line_num col_num : Int) :
    ((line_num ≤ 0 ∨ line_num > lines.length) →
      get_code_snippet lines line_num col_num = none) ∧
    (1 ≤ line_num → line_num ≤ lines.length →
      (∀ i ∈ intRange (max 0 (line_num - 2)) (min (lines.length : Int) (line_num + 1)),
        0 ≤ i ∧ i.toNat < lines.length) ∧
      (intRange (max 0 (line_num - 2)) (min (lines.length : Int) (line_num + 1))).length ≤ 3 ∧
      (get_code_snippet lines line_num col_num).isSome = true) := by
  constructor
  · intro h
    rw [get_code_snippet, if_pos h]
  · intro h1 h2
    generalize hs : max 0 (line_num - 2) = s
    generalize ht : min ((lines.length : Int)) (line_num + 1) = t
    have hstart1 : (0 : Int) ≤ s := hs ▸ le_max_left 0 (line_num - 2)
    have hstop1 : t ≤ lines.length := ht ▸ min_le_left _ _
    have hstop2 : t ≤ line_num + 1 := ht ▸ min_le_right _ _
    have hstart3 : s ≤ line_num - 1 := by
      rw [← hs]
      rcases max_cases 0 (line_num - 2) with ⟨he, _⟩ | ⟨he, _⟩ <;> omega
    refine ⟨?_, ?_, ?_⟩
    · intro i hi
      simp only [intRange, List.mem_map, List.mem_range] at hi
      obtain ⟨k, hk, rfl⟩ := hi
      omega
    · rw [intRange, List.length_map, List.length_range]
      omega
    · rw [get_code_snippet, if_neg (by omega)]
      rfl

/-- Witness for C9 at the one-line file ["x"] and error line 1: the context
window has at most three lines and a snippet is produced. -/
theorem get_code_snippet_safe_witness :
    (intRange (max 0 ((1 : Int) - 2))
      (min ((["x"] : List String).length : Int) (1 + 1))).length ≤ 3 ∧
    (get_code_snippet ["x"] 1 0).isSome = true :=
  ⟨((get_code_snippet_safe ["x"] 1 0).2 (by decide) (by decide)).2.1,
   ((get_code_snippet_safe ["x"] 1 0).2 (by decide) (by decide)).2.2⟩

/-- Python's `'{' in line`. -/
def lineHasBrace (l : String) : Bool := decide ('{' ∈ l.data)

/-- The character step of `extract_method`'s brace counter from
`source/extract_methods_v2.py` (lines 136-144): every '"' toggles the
in-string flag; outside a string, '{' and '}' adjust the count. -/
def braceStep (st : Bool × Int) (c : Char) : Bool × Int :=
  if c = '"' then (!st.1, st.2)
  else if st.1 = false then
    if c = '{' then (st.1, st.2 + 1)
    else if c = '}' then (st.1, st.2 - 1)
    else st
  else st

/-- Fold the brace counter over one line. -/
def lineBraces (st : Bool × Int) (l : String) : Bool × Int := l.data.foldl braceStep st

/-- The `while current < len(lines) and '{' not in lines[current]` loop of
`extract_method` (lines 124-126): advance to the first line at or after `i`
containing '{' (or to the end of the file). -/
def whileNoBrace (lines : List String) (i : Nat) : Nat :=
  if h : i < lines.length then
    if lineHasBrace (lines.getD i "") then i else whileNoBrace lines (i + 1)
  else i
termination_by lines.length - i
decreasing_by omega

/-- The `for i in range(current, len(lines))` loop of `extract_method`
(lines 133-151): accumulate lines, fold the brace counter, and return the
joined accumulator at the first line where the count is zero and the
accumulated text contains '{' (the Python locals `brace_count`,
`in_string` and `method_lines` are the fold state and the accumulator). -/
def scanLoop : List String → (Bool × Int) → List String → Option String
  | [], _, _ => none
  | l :: rest, st, acc =>
    if (lineBraces st l).2 = 0 ∧ decide ('{' ∈ (String.join (acc ++ [l])).data) = true then
      some (String.join (acc ++ [l]))
    else scanLoop rest (lineBraces st l) (acc ++ [l])

/-- Embedding of `extract_method` from `source/extract_methods_v2.py` (lines
116-154) on the module-level `lines` list and a 1-based `start_line` (the
function is only called with line numbers produced by grep, which are at
least 1; Python's negative-index behaviour for 0 is outside the modelled
domain). -/
def extract_method (lines : List String) (start_line : Nat) : Option String :=
  if start_line > lines.length then none
  else if whileNoBrace lines (start_line - 1) < lines.length then
    scanLoop (lines.drop (whileNoBrace lines (start_line - 1))) (false, 0) []
  else none

/-- The string-aware running brace count over lines `f .. f+k` (0-based),
started from a fresh state. -/
def stateCount (lines : List String) (f k : Nat) : Int :=
  (((lines.drop f).take (k + 1)).foldl lineBraces (false, 0)).2

/-- `f` is the first line at or after `s` that contains '{'. -/
def FirstBrace (lines : List String) (s f : Nat) : Prop :=
  s ≤ f ∧ f < lines.length ∧ lineHasBrace (lines.getD f "") = true ∧
    ∀ j, j < f → s ≤ j → lineHasBrace (lines.getD j "") = false

/-- `f + k` is the first line at which the running count returns to zero. -/
def BalanceAt (lines : List String) (f k : Nat) : Prop :=
  f + k < lines.length ∧ stateCount lines f k = 0 ∧
    ∀ k2, k2 < k → stateCount lines f k2 ≠ 0

instance (lines : List String) (s f : Nat) : Decidable (FirstBrace lines s f) :=
  decidable_of_iff _ (by unfold FirstBrace; exact Iff.rfl)

instance (lines : List String) (f k : Nat) : Decidable (BalanceAt lines f k) :=
  decidable_of_iff _ (by unfold BalanceAt; exact Iff.rfl)

theorem whileNoBrace_spec (lines : List String) :
    ∀ i, i ≤ whileNoBrace lines i ∧
      (i ≤ lines.length → whileNoBrace lines i ≤ lines.length) ∧
      (whileNoBrace lines i < lines.length →
        lineHasBrace (lines.getD (whileNoBrace lines i) "") = true) ∧
      (∀ j, i ≤ j → j < whileNoBrace lines i → j < lines.length →
        lineHasBrace (lines.getD j "") = false) := by
  have H : ∀ d i, lines.length - i ≤ d →
      i ≤ whileNoBrace lines i ∧
      (i ≤ lines.length → whileNoBrace lines i ≤ lines.length) ∧
      (whileNoBrace lines i < lines.length →
        lineHasBrace (lines.getD (whileNoBrace lines i) "") = true) ∧
      (∀ j, i ≤ j → j < whileNoBrace lines i → j < lines.length →
        lineHasBrace (lines.getD j "") = false) := by
    intro d
    induction d with
    | zero =>
      intro i hd
      rw [whileNoBrace]
      split
      · omega
      · refine ⟨le_refl i, fun h => by omega, fun h => by omega, fun j hij hji hjl => by omega⟩
    | succ d ih =>
      intro i hd
      rw [whileNoBrace]
      split
      · split
        · refine ⟨le_refl i, fun h => by omega, fun _ => by assumption,
            fun j hij hji hjl => by omega⟩
        · rename_i hno
          obtain ⟨g1, g2, g3, g4⟩ := ih (i + 1) (by omega)
          refine ⟨by omega, fun h => g2 (by omega), g3, ?_⟩
          intro j hij hji hjl
          rcases Nat.eq_or_lt_of_le hij with rfl | hlt
          · exact Bool.eq_false_iff.mpr hno
          · exact g4 j (by omega) hji hjl
      · refine ⟨le_refl i, fun h => by omega, fun h => by omega, fun j hij hji hjl => by omega⟩
  intro i
  exact H (lines.length - i) i (le_refl _)

theorem whileNoBrace_eq_of_first {lines : List String} {s f : Nat}
    (hf : FirstBrace lines s f) : whileNoBrace lines s = f := by
  obtain ⟨hsf, hflen, hbrace, hmin⟩ := hf
  obtain ⟨g1, g2, g3, g4⟩ := whileNoBrace_spec lines s
  by_contra hne
  rcases Nat.lt_or_ge (whileNoBrace lines s) f with hlt | hge
  · have : lineHasBrace (lines.getD (whileNoBrace lines s) "") = true :=
      g3 (by omega)
    have := hmin (whileNoBrace lines s) hlt g1
    simp_all
  · have hgt : f < whileNoBrace lines s := by omega
    have := g4 f hsf hgt hflen
    simp_all

theorem foldl_append_data (ls : List String) :
    ∀ a : String, (ls.foldl (· ++ ·) a).data = a.data ++ (ls.map String.data).flatten := by
  induction ls with
  | nil => intro a; simp
  | cons l rest ih =>
    intro a
    rw [List.foldl_cons, ih, List.map_cons, List.flatten_cons, String.data_append,
      List.append_assoc]

theorem join_data (ls : List String) :
    (String.join ls).data = (ls.map String.data).flatten := by
  rw [String.join, foldl_append_data]
  rfl

theorem scanLoop_eq_some :
    ∀ (ls : List String) (st : Bool × Int) (acc : List String) (k : Nat),
      k < ls.length →
      (((ls.take (k + 1)).foldl lineBraces st).2 = 0 ∧
        '{' ∈ (String.join (acc ++ ls.take (k + 1))).data) →
      (∀ j, j < k → ¬(((ls.take (j + 1)).foldl lineBraces st).2 = 0 ∧
        '{' ∈ (String.join (acc ++ ls.take (j + 1))).data)) →
      scanLoop ls st acc = some (String.join (acc ++ ls.take (k + 1))) := by
  intro ls
  induction ls with
  | nil => intro st acc k hk; simp at hk
  | cons l rest ih =>
    intro st acc k hk hcond hmin
    match k with
    | 0 =>
      simp only [List.take_succ_cons, List.take_zero] at hcond
      rw [scanLoop, if_pos (by
        refine ⟨?_, ?_⟩
        · simpa using hcond.1
        · simpa using decide_eq_true hcond.2)]
      simp
    | k' + 1 =>
      have h0 := hmin 0 (by omega)
      simp only [List.take_succ_cons, List.take_zero] at h0
      rw [scanLoop, if_neg (by
        intro ⟨ha, hb⟩
        exact h0 ⟨by simpa using ha, by simpa using of_decide_eq_true hb⟩)]
      have := ih (lineBraces st l) (acc ++ [l]) k' (by simpa using hk)
        (by
          simp only [List.take_succ_cons, List.foldl_cons, List.append_assoc,
            List.singleton_append] at hcond ⊢
          exact hcond)
        (by
          intro j hj
          have := hmin (j + 1) (by omega)
          simp only [List.take_succ_cons, List.foldl_cons, List.append_assoc,
            List.singleton_append] at this ⊢
          exact this)
      rw [this]
      simp

theorem scanLoop_eq_none :
    ∀ (ls : List String) (st : Bool × Int) (acc : List String),
      (∀ k, k < ls.length → ¬(((ls.take (k + 1)).foldl lineBraces st).2 = 0 ∧
        '{' ∈ (String.join (acc ++ ls.take (k + 1))).data)) →
      scanLoop ls st acc = none := by
  intro ls
  induction ls with
  | nil => intro st acc h; rfl
  | cons l rest ih =>
    intro st acc h
    have h0 := h 0 (by simp)
    simp only [List.take_succ_cons, List.take_zero] at h0
    rw [scanLoop, if_neg (by
      intro ⟨ha, hb⟩
      exact h0 ⟨by simpa using ha, by simpa using of_decide_eq_true hb⟩)]
    refine ih (lineBraces st l) (acc ++ [l]) ?_
    intro k hk
    have := h (k + 1) (by simpa using hk)
    simp only [List.take_succ_cons, List.foldl_cons, List.append_assoc,
      List.singleton_append] at this ⊢
    exact this

theorem mem_join_take_first {lines : List String} {f : Nat} (hf : f < lines.length)
    (hb : lineHasBrace (lines.getD f "") = true) (k : Nat) :
    '{' ∈ (String.join ([] ++ (lines.drop f).take (k + 1))).data := by
  rw [List.drop_eq_getElem_cons hf]
  rw [List.nil_append, List.take_succ_cons, join_data, List.map_cons, List.flatten_cons]
  apply List.mem_append_left
  have : lines.getD f "" = lines[f] := List.getD_eq_getElem lines "" hf
  rw [← this]
  exact of_decide_eq_true hb

/-- C2: extract_method returns exactly the contiguous run of lines that
begins at the first line at or after the start line containing '{' and ends
at the first line where the string-aware running brace count returns to
zero; it returns None when no line from the start onward contains '{', and
None when the count never returns to zero before the end of the file. -/
theorem extract_method_spec (lines : List String) (start_line : Nat)
    (_h1 : 1 ≤ start_line) (h2 : start_line ≤ lines.length) :
    (∀ f k, FirstBrace lines (start_line - 1) f → BalanceAt lines f k →
      extract_method lines start_line =
        some (String.join ((lines.drop f).take (k + 1)))) ∧
    ((∀ j, start_line - 1 ≤ j → j < lines.length →
        lineHasBrace (lines.getD j "") = false) →
      extract_method lines start_line = none) ∧
    (∀ f, FirstBrace lines (start_line - 1) f →
      (∀ k, f + k < lines.length → stateCount lines f k ≠ 0) →
      extract_method lines start_line = none) := by
  refine ⟨?_, ?_, ?_⟩
  · intro f k hf hbal
    have hwf : whileNoBrace lines (start_line - 1) = f := whileNoBrace_eq_of_first hf
    obtain ⟨hsf, hflen, hbrace, _⟩ := hf
    obtain ⟨hklen, hzero, hmin⟩ := hbal
    rw [extract_method, if_neg (by omega), if_pos (by rw [hwf]; omega), hwf]
    have := scanLoop_eq_some (lines.drop f) (false, 0) [] k
      (by rw [List.length_drop]; omega)
      (⟨hzero, mem_join_take_first hflen hbrace k⟩)
      (by
        intro j hj hcj
        exact hmin j hj hcj.1)
    rw [this, List.nil_append]
  · intro hall
    have hge : ¬ whileNoBrace lines (start_line - 1) < lines.length := by
      intro hlt
      obtain ⟨g1, _, g3, _⟩ := whileNoBrace_spec lines (start_line - 1)
      have := hall (whileNoBrace lines (start_line - 1)) g1 hlt
      rw [g3 hlt] at this
      exact Bool.noConfusion this
    rw [extract_method, if_neg (by omega), if_neg hge]
  · intro f hf hnone
    have hwf : whileNoBrace lines (start_line - 1) = f := whileNoBrace_eq_of_first hf
    obtain ⟨hsf, hflen, hbrace, _⟩ := hf
    rw [extract_method, if_neg (by omega), if_pos (by rw [hwf]; omega), hwf]
    refine scanLoop_eq_none (lines.drop f) (false, 0) [] ?_
    intro k hk hck
    refine hnone k ?_ hck.1
    rw [List.length_drop] at hk
    omega

/-- Witness for C2 on a two-line method: the first line opens the brace, the
second closes it, so the extracted text is their concatenation. -/
theorem extract_method_spec_witness :
    extract_method ["fn f() \x7b", "\x7d"] 1 = some "fn f() \x7b\x7d" := by
  have h := (extract_method_spec ["fn f() \x7b", "\x7d"] 1 (by decide) (by decide)).1 0 1
    (by decide) (by decide)
  rw [h]
  decide
